import Mathlib

/-!
Verification development for the `weighted-random-item-sampler` library.

The library consists of a single class, `WeightedRandomItemSampler<T>`:
its constructor validates the inputs and builds a cumulative table of
range ends (`_ascRangeEnds`) from the weights, and `sample()` draws a
uniform point in `[0, _lastRangeEnd)` and locates its range with a
left-biased binary search (`_findCorrespondingRangeIndex`).

JavaScript `number` values are modelled by `ℚ` (exact arithmetic on the
ordinary values appearing in the algorithm).  For the claims about the
IEEE special values NaN and ±Infinity a second numeric carrier `JSNum`
is used, which represents a JavaScript number as either a finite
rational or one of the special values, with IEEE comparison and
addition semantics; the constructor is embedded over both carriers
with identical control flow.

Thrown `Error`s are modelled by the inductive `SamplerError`; each
constructor carries exactly the data interpolated into the corresponding
error message of the source (the two lengths for the mismatch error, the offending
weight value for the non-positive-weight error).
-/

universe u

namespace WeightedSampler

variable {T : Type u}

/-- Validation failures of the constructor.  `nonPositiveWeight` carries
the offending weight value, which is the only datum interpolated into the
corresponding thrown message in the source. -/
inductive SamplerError where
  | emptyInput
  | lengthMismatch (numItems numWeights : Nat)
  | nonPositiveWeight (weight : ℚ)
  deriving DecidableEq

/-- Fields of the sampler: `_items`, `_ascRangeEnds` (ascending exclusive
ends of the imaginary ranges) and `_lastRangeEnd` (the final prefix sum,
i.e. the total weight). -/
structure WeightedRandomItemSampler (T : Type u) where
  items : List T
  ascRangeEnds : List ℚ
  lastRangeEnd : ℚ

/-- The accumulation loop of the constructor: for each weight, first check
`weight <= 0` (throwing `nonPositiveWeight` on the first offender), then
add the weight to the running prefix sum and push the sum onto
`ascRangeEnds`.  Returns the built list together with the final prefix
sum. -/
def buildRangeEnds : List ℚ → ℚ → Except SamplerError (List ℚ × ℚ)
  | [], weightsPrefixSum => .ok ([], weightsPrefixSum)
  | weight :: rest, weightsPrefixSum =>
    if weight ≤ 0 then .error (.nonPositiveWeight weight)
    else
      match buildRangeEnds rest (weightsPrefixSum + weight) with
      | .error e => .error e
      | .ok (ends, total) => .ok ((weightsPrefixSum + weight) :: ends, total)

/-- The constructor: the empty-items check, then the length-mismatch
check, then the accumulation loop over the weights.  A failure produces
only the error value, never an instance. -/
def construct (items : List T) (respectiveWeights : List ℚ) :
    Except SamplerError (WeightedRandomItemSampler T) :=
  if items.length = 0 then .error .emptyInput
  else if items.length ≠ respectiveWeights.length then
    .error (.lengthMismatch items.length respectiveWeights.length)
  else
    match buildRangeEnds respectiveWeights 0 with
    | .error e => .error e
    | .ok (ends, total) => .ok ⟨items, ends, total⟩

/-- The loop body of `_findCorrespondingRangeIndex`.  `left` and `right`
are embedded as integers because `right` becomes `-1` when the search
moves below index 0.  `mid = Math.floor((left+right)/2)` is floor
division, which for integers is `Int.ediv` (the `/` of `Int` here);
list reads `this._ascRangeEnds[mid]` are embedded with `getD _ 0`
(inside the loop `0 ≤ left ≤ mid ≤ right < length` always holds, so the
default is never consulted in a reachable state). -/
def searchLoop (ascRangeEnds : List ℚ) (pointInRange : ℚ)
    (rangeIndex : Nat) (left right : Int) : Nat :=
  if left ≤ right then
    let mid := (left + right) / 2
    if pointInRange < ascRangeEnds.getD mid.toNat 0 then
      searchLoop ascRangeEnds pointInRange mid.toNat left (mid - 1)
    else
      searchLoop ascRangeEnds pointInRange rangeIndex (mid + 1) right
  else rangeIndex
termination_by (right + 1 - left).toNat
decreasing_by all_goals omega

/-- The method `_findCorrespondingRangeIndex`: binary search for the leftmost index
`i` with `pointInRange < ascRangeEnds[i]`, starting from the candidate
`rangeIndex = 0`, `left = 0`, `right = ascRangeEnds.length - 1`. -/
def findCorrespondingRangeIndex (s : WeightedRandomItemSampler T)
    (pointInRange : ℚ) : Nat :=
  searchLoop s.ascRangeEnds pointInRange 0 0 ((s.ascRangeEnds.length : Int) - 1)

/-- The method `sample()`, with the draw `Math.random()` made explicit as the
parameter `u ∈ [0,1)`: compute `randomPoint = u * _lastRangeEnd`, locate
its range, and read `_items[rangeIndex]`.  The JavaScript array read is
embedded as `getElem?`, whose `none` models the out-of-bounds value
`undefined`. -/
def sample (s : WeightedRandomItemSampler T) (u : ℚ) : Option T :=
  let randomPoint := u * s.lastRangeEnd
  let rangeIndex := findCorrespondingRangeIndex s randomPoint
  s.items[rangeIndex]?

/-- The method `sample()` as an explicit state transformer.  The method body only
reads the fields `_items`, `_ascRangeEnds` and `_lastRangeEnd` and
contains no assignment, so the outgoing state is the incoming one. -/
def sampleStep (s : WeightedRandomItemSampler T) (u : ℚ) :
    Option T × WeightedRandomItemSampler T :=
  (sample s u, s)

/-- A sequence of `sample()` calls with the state threaded through,
returning the drawn values and the final state. -/
def runSamples : WeightedRandomItemSampler T → List ℚ →
    List (Option T) × WeightedRandomItemSampler T
  | s, [] => ([], s)
  | s, u :: us =>
    let step := sampleStep s u
    let restRun := runSamples step.2 us
    (step.1 :: restRun.1, restRun.2)

/-- Fuel-indexed version of `searchLoop`, identical except that each
iteration consumes one unit of fuel and exhaustion returns `none`.  It
makes the termination of the loop a provable statement: enough fuel
(one more than the interval width `right + 1 - left`) always yields
`some`. -/
def searchLoopFuel (ascRangeEnds : List ℚ) (pointInRange : ℚ) :
    Nat → Nat → Int → Int → Option Nat
  | 0, _, _, _ => none
  | fuel + 1, rangeIndex, left, right =>
    if left ≤ right then
      let mid := (left + right) / 2
      if pointInRange < ascRangeEnds.getD mid.toNat 0 then
        searchLoopFuel ascRangeEnds pointInRange fuel mid.toNat left (mid - 1)
      else
        searchLoopFuel ascRangeEnds pointInRange fuel rangeIndex (mid + 1) right
    else some rangeIndex

/-- A JavaScript `number`: a finite rational or one of the IEEE special
values.  (Signed zero is irrelevant here: `-0 <= 0` and `0 <= 0` agree.) -/
inductive JSNum where
  | num (q : ℚ)
  | nan
  | posInf
  | negInf
  deriving DecidableEq

/-- IEEE `<=` on JavaScript numbers: any comparison involving NaN is
false; `-Infinity` is below everything else and `Infinity` above. -/
def JSNum.jsLe : JSNum → JSNum → Bool
  | .nan, _ => false
  | _, .nan => false
  | .negInf, _ => true
  | _, .negInf => false
  | _, .posInf => true
  | .posInf, _ => false
  | .num a, .num b => a ≤ b

/-- IEEE addition on JavaScript numbers: NaN propagates,
`Infinity + (-Infinity)` is NaN, infinities absorb finite values. -/
def JSNum.jsAdd : JSNum → JSNum → JSNum
  | .nan, _ => .nan
  | _, .nan => .nan
  | .posInf, .negInf => .nan
  | .negInf, .posInf => .nan
  | .posInf, _ => .posInf
  | _, .posInf => .posInf
  | .negInf, _ => .negInf
  | _, .negInf => .negInf
  | .num a, .num b => .num (a + b)

/-- Validation failures of the constructor over the `JSNum` carrier. -/
inductive JSSamplerError where
  | emptyInput
  | lengthMismatch (numItems numWeights : Nat)
  | nonPositiveWeight (weight : JSNum)
  deriving DecidableEq

/-- Fields of the sampler over the `JSNum` carrier. -/
structure JSWeightedRandomItemSampler (T : Type u) where
  items : List T
  ascRangeEnds : List JSNum
  lastRangeEnd : JSNum

/-- The accumulation loop of the constructor over the `JSNum` carrier: the
check is the IEEE comparison `weight <= 0`, the accumulation is IEEE
addition.  Same control flow as `buildRangeEnds`. -/
def buildRangeEndsJS : List JSNum → JSNum →
    Except JSSamplerError (List JSNum × JSNum)
  | [], weightsPrefixSum => .ok ([], weightsPrefixSum)
  | weight :: rest, weightsPrefixSum =>
    if weight.jsLe (.num 0) then .error (.nonPositiveWeight weight)
    else
      match buildRangeEndsJS rest (weightsPrefixSum.jsAdd weight) with
      | .error e => .error e
      | .ok (ends, total) => .ok ((weightsPrefixSum.jsAdd weight) :: ends, total)

/-- The constructor over the `JSNum` carrier: same checks, in the same
order, as `construct`. -/
def constructJS (items : List T) (respectiveWeights : List JSNum) :
    Except JSSamplerError (JSWeightedRandomItemSampler T) :=
  if items.length = 0 then .error .emptyInput
  else if items.length ≠ respectiveWeights.length then
    .error (.lengthMismatch items.length respectiveWeights.length)
  else
    match buildRangeEndsJS respectiveWeights (.num 0) with
    | .error e => .error e
    | .ok (ends, total) => .ok ⟨items, ends, total⟩

/-- One unfolding of `searchLoop` in the branch that records the midpoint
as an improving candidate and moves `right` below it. -/
lemma searchLoop_step_lt {ends : List ℚ} {p : ℚ} {ri : Nat} {left right : Int}
    (hle : left ≤ right) (hlt : p < ends.getD ((left + right) / 2).toNat 0) :
    searchLoop ends p ri left right =
      searchLoop ends p ((left + right) / 2).toNat left ((left + right) / 2 - 1) := by
  rw [searchLoop]
  simp only [if_pos hle, if_pos hlt]

/-- One unfolding of `searchLoop` in the branch that moves `left` above
the midpoint. -/
lemma searchLoop_step_ge {ends : List ℚ} {p : ℚ} {ri : Nat} {left right : Int}
    (hle : left ≤ right) (hge : ¬ p < ends.getD ((left + right) / 2).toNat 0) :
    searchLoop ends p ri left right =
      searchLoop ends p ri ((left + right) / 2 + 1) right := by
  rw [searchLoop]
  simp only [if_pos hle, if_neg hge]

/-- The loop returns the current candidate once the interval is empty. -/
lemma searchLoop_done {ends : List ℚ} {p : ℚ} {ri : Nat} {left right : Int}
    (hgt : ¬ left ≤ right) :
    searchLoop ends p ri left right = ri := by
  rw [searchLoop]
  simp only [if_neg hgt]

/-- Invariant-based specification of the search loop.  Provided the
predicate `p < ends[·]` is upward closed (which holds for a sorted
table), and starting from a state satisfying the loop invariants, the
loop ends either with candidate `0` untouched because no index
satisfies the predicate, or with the leftmost index satisfying it. -/
lemma searchLoop_spec (ends : List ℚ) (p : ℚ)
    (mono : ∀ i j : Nat, i ≤ j → j < ends.length →
      p < ends.getD i 0 → p < ends.getD j 0) :
    ∀ (ri : Nat) (left right : Int),
      0 ≤ left → left ≤ right + 1 → right < (ends.length : Int) →
      (∀ j : Nat, (j : Int) < left → ¬ p < ends.getD j 0) →
      ((ri = 0 ∧ right = (ends.length : Int) - 1) ∨
        ((ri : Int) = right + 1 ∧ ri < ends.length ∧ p < ends.getD ri 0)) →
      (searchLoop ends p ri left right = 0 ∧
        ∀ j : Nat, j < ends.length → ¬ p < ends.getD j 0) ∨
      (searchLoop ends p ri left right < ends.length ∧
        p < ends.getD (searchLoop ends p ri left right) 0 ∧
        ∀ j : Nat, j < searchLoop ends p ri left right → ¬ p < ends.getD j 0) := by
  intro ri left right
  induction ri, left, right using searchLoop.induct ends p with
  | case1 ri left right hle mid hlt ih =>
    intro h0 hlr hrn hbelow hcand
    have hmid : mid = (left + right) / 2 := rfl
    rw [searchLoop_step_lt hle hlt]
    apply ih
    · exact h0
    · omega
    · omega
    · exact hbelow
    · refine Or.inr ⟨by omega, by omega, hlt⟩
  | case2 ri left right hle mid hge ih =>
    intro h0 hlr hrn hbelow hcand
    have hmid : mid = (left + right) / 2 := rfl
    rw [searchLoop_step_ge hle hge]
    apply ih
    · omega
    · omega
    · exact hrn
    · intro j hj
      by_cases hjl : (j : Int) < left
      · exact hbelow j hjl
      · intro hPj
        exact hge (mono j mid.toNat (by omega) (by omega) hPj)
    · exact hcand
  | case3 ri left right hgt =>
    intro h0 hlr hrn hbelow hcand
    rw [searchLoop_done hgt]
    rcases hcand with ⟨hri, hrt⟩ | ⟨hri, hlen, hP⟩
    · refine Or.inl ⟨hri, ?_⟩
      intro j hj
      exact hbelow j (by omega)
    · refine Or.inr ⟨hlen, hP, ?_⟩
      intro j hj
      exact hbelow j (by omega)

/-- The fuel-indexed loop agrees with the loop whenever the fuel exceeds
the width `right + 1 - left` of the search interval: each iteration
shrinks the interval strictly, so the width bounds the iteration count. -/
lemma searchLoopFuel_eq (ends : List ℚ) (p : ℚ) :
    ∀ (fuel : Nat) (ri : Nat) (left right : Int),
      (right + 1 - left).toNat < fuel →
      searchLoopFuel ends p fuel ri left right =
        some (searchLoop ends p ri left right) := by
  intro fuel
  induction fuel with
  | zero => intro ri left right h; omega
  | succ f ih =>
    intro ri left right h
    by_cases hle : left ≤ right
    · by_cases hlt : p < ends.getD ((left + right) / 2).toNat 0
      · rw [searchLoop_step_lt hle hlt]
        simp only [searchLoopFuel, if_pos hle, if_pos hlt]
        exact ih _ _ _ (by omega)
      · rw [searchLoop_step_ge hle hlt]
        simp only [searchLoopFuel, if_pos hle, if_neg hlt]
        exact ih _ _ _ (by omega)
    · rw [searchLoop_done hle]
      simp only [searchLoopFuel, if_neg hle]

/-- Success characterization of the accumulation loop:
on `.ok (ends, total)` all weights are positive, `ends` has one entry
per weight holding `acc` plus the prefix sum of the weights so far,
`total` is `acc` plus the full sum, and `acc :: ends` is strictly
increasing. -/
lemma buildRangeEnds_ok_facts :
    ∀ (ws : List ℚ) (acc : ℚ) (ends : List ℚ) (total : ℚ),
      buildRangeEnds ws acc = .ok (ends, total) →
      (∀ w ∈ ws, 0 < w) ∧ ends.length = ws.length ∧
      (∀ i, i < ws.length → ends.getD i 0 = acc + (ws.take (i + 1)).sum) ∧
      total = acc + ws.sum ∧ List.Chain' (· < ·) (acc :: ends) := by
  intro ws
  induction ws with
  | nil =>
    intro acc ends total h
    rw [buildRangeEnds] at h
    simp only [Except.ok.injEq, Prod.mk.injEq] at h
    obtain ⟨hends, htotal⟩ := h
    subst hends; subst htotal
    refine ⟨by simp, rfl, by intro i hi; simp at hi, by simp, ?_⟩
    simp [List.chain'_singleton]
  | cons w ws ih =>
    intro acc ends total h
    rw [buildRangeEnds] at h
    split at h
    · exact absurd h (by simp)
    · rename_i hwpos
      split at h
      · exact absurd h (by simp)
      · rename_i ends' total' heq
        simp only [Except.ok.injEq, Prod.mk.injEq] at h
        obtain ⟨hends, htotal⟩ := h
        subst hends; subst htotal
        obtain ⟨hpos, hlen, hget, htot, hchain⟩ := ih (acc + w) ends' total' heq
        refine ⟨?_, ?_, ?_, ?_, ?_⟩
        · intro v hv
          rcases List.mem_cons.mp hv with rfl | hv
          · exact lt_of_not_le (by simpa using hwpos)
          · exact hpos v hv
        · simpa using hlen
        · intro i hi
          cases i with
          | zero => simp
          | succ i' =>
            simp only [List.getD_cons_succ, List.take_succ_cons, List.sum_cons]
            rw [hget i' (by simpa using hi)]
            ring
        · simp only [List.sum_cons] at htot ⊢
          rw [htot]; ring
        · refine List.chain'_cons.mpr ⟨?_, hchain⟩
          have : 0 < w := lt_of_not_le (by simpa using hwpos)
          linarith

/-- The accumulation loop succeeds when every weight is positive. -/
lemma buildRangeEnds_ok_of_pos :
    ∀ (ws : List ℚ) (acc : ℚ), (∀ w ∈ ws, 0 < w) →
      ∃ ends total, buildRangeEnds ws acc = .ok (ends, total) := by
  intro ws
  induction ws with
  | nil => intro acc _; exact ⟨[], acc, rfl⟩
  | cons w ws ih =>
    intro acc hpos
    have hw : 0 < w := hpos w (by simp)
    obtain ⟨ends', total', heq⟩ := ih (acc + w) (fun v hv => hpos v (by simp [hv]))
    refine ⟨(acc + w) :: ends', total', ?_⟩
    rw [buildRangeEnds, if_neg (by linarith), heq]

/-- The accumulation loop fails with `nonPositiveWeight` on the first
non-positive weight, carrying the value of that weight. -/
lemma buildRangeEnds_err_first :
    ∀ (pre : List ℚ) (w : ℚ) (post : List ℚ) (acc : ℚ),
      (∀ v ∈ pre, 0 < v) → w ≤ 0 →
      buildRangeEnds (pre ++ w :: post) acc = .error (.nonPositiveWeight w) := by
  intro pre
  induction pre with
  | nil =>
    intro w post acc _ hw
    rw [List.nil_append, buildRangeEnds, if_pos hw]
  | cons v pre ih =>
    intro w post acc hpre hw
    have hv : 0 < v := hpre v (by simp)
    rw [List.cons_append, buildRangeEnds, if_neg (by linarith),
      ih w post (acc + v) (fun x hx => hpre x (by simp [hx])) hw]

/-- Elimination of a successful `construct`: both validation checks
passed and the accumulation loop produced the stored fields. -/
lemma construct_ok_elim {items : List T} {ws : List ℚ}
    {s : WeightedRandomItemSampler T} (h : construct items ws = .ok s) :
    items ≠ [] ∧ items.length = ws.length ∧ s.items = items ∧
    buildRangeEnds ws 0 = .ok (s.ascRangeEnds, s.lastRangeEnd) := by
  rw [construct] at h
  split at h
  · exact absurd h (by simp)
  · rename_i hne
    split at h
    · exact absurd h (by simp)
    · rename_i hlen
      split at h
      · exact absurd h (by simp)
      · rename_i ends total heq
        simp only [Except.ok.injEq] at h
        subst h
        exact ⟨fun hx => hne (by simp [hx]), not_ne_iff.mp hlen, rfl, heq⟩

/-- Facts holding for every successfully constructed sampler: the items
are stored as given, the table is index-aligned with them, all weights
are positive, each table entry is the corresponding inclusive prefix sum
of the weights, the cached total is the full sum, and the table prefixed
with `0` is strictly increasing. -/
lemma construct_ok_facts {items : List T} {ws : List ℚ}
    {s : WeightedRandomItemSampler T} (h : construct items ws = .ok s) :
    s.items = items ∧ s.ascRangeEnds.length = items.length ∧
    items ≠ [] ∧ items.length = ws.length ∧
    (∀ w ∈ ws, 0 < w) ∧
    (∀ i, i < s.ascRangeEnds.length →
      s.ascRangeEnds.getD i 0 = (ws.take (i + 1)).sum) ∧
    s.lastRangeEnd = ws.sum ∧
    List.Chain' (· < ·) ((0 : ℚ) :: s.ascRangeEnds) := by
  obtain ⟨hne, hlen, hitems, hbuild⟩ := construct_ok_elim h
  obtain ⟨hpos, hblen, hget, htot, hchain⟩ :=
    buildRangeEnds_ok_facts _ _ _ _ hbuild
  refine ⟨hitems, by rw [hblen, hlen], hne, hlen, hpos, ?_, by rw [htot]; ring, hchain⟩
  intro i hi
  rw [hget i (by omega)]
  ring

/-- Reads from a table that is strictly increasing together with the
prefixed `0`: every entry is positive, and reads are (strictly)
monotone in the index. -/
lemma chain_facts {ends : List ℚ}
    (hch : List.Chain' (· < ·) ((0 : ℚ) :: ends)) :
    (∀ i, i < ends.length → 0 < ends.getD i 0) ∧
    (∀ i j, i ≤ j → j < ends.length → ends.getD i 0 ≤ ends.getD j 0) ∧
    (∀ i j, i < j → j < ends.length → ends.getD i 0 < ends.getD j 0) := by
  have hp : List.Pairwise (· < ·) ((0 : ℚ) :: ends) :=
    List.chain'_iff_pairwise.mp hch
  obtain ⟨hpos0, hpair⟩ := List.pairwise_cons.mp hp
  have hstrict : ∀ i j, i < j → j < ends.length →
      ends.getD i 0 < ends.getD j 0 := by
    intro i j hij hj
    have hi : i < ends.length := lt_trans hij hj
    rw [List.getD_eq_getElem _ _ hi, List.getD_eq_getElem _ _ hj]
    have := List.pairwise_iff_get.mp hpair ⟨i, hi⟩ ⟨j, hj⟩ hij
    simpa using this
  refine ⟨?_, ?_, hstrict⟩
  · intro i hi
    rw [List.getD_eq_getElem _ _ hi]
    exact hpos0 _ (List.getElem_mem hi)
  · intro i j hij hj
    rcases lt_or_eq_of_le hij with hlt | rfl
    · exact le_of_lt (hstrict i j hlt hj)
    · exact le_refl _

/-- The cached total is the last table entry of a constructed sampler. -/
lemma construct_ok_total_eq_last {items : List T} {ws : List ℚ}
    {s : WeightedRandomItemSampler T} (h : construct items ws = .ok s) :
    s.lastRangeEnd =
      s.ascRangeEnds.getD (s.ascRangeEnds.length - 1) 0 := by
  obtain ⟨_, hlen, hne, hlw, _, hget, htot, _⟩ := construct_ok_facts h
  have hn : 1 ≤ s.ascRangeEnds.length := by
    rw [hlen]
    exact List.length_pos.mpr hne
  rw [htot, hget (s.ascRangeEnds.length - 1) (by omega)]
  have : s.ascRangeEnds.length - 1 + 1 = ws.length := by omega
  rw [this, List.take_length]

/-- The two possible outcomes of `_findCorrespondingRangeIndex` on a
constructed sampler: the untouched candidate `0` when the point is
below no table entry, or the leftmost index whose entry exceeds the
point. -/
lemma findIndex_cases {items : List T} {ws : List ℚ}
    {s : WeightedRandomItemSampler T} (h : construct items ws = .ok s)
    (p : ℚ) :
    (findCorrespondingRangeIndex s p = 0 ∧
      ∀ j, j < s.ascRangeEnds.length → s.ascRangeEnds.getD j 0 ≤ p) ∨
    (findCorrespondingRangeIndex s p < s.ascRangeEnds.length ∧
      p < s.ascRangeEnds.getD (findCorrespondingRangeIndex s p) 0 ∧
      ∀ j, j < findCorrespondingRangeIndex s p →
        s.ascRangeEnds.getD j 0 ≤ p) := by
  obtain ⟨_, _, _, _, _, _, _, hchain⟩ := construct_ok_facts h
  obtain ⟨_, hmono, _⟩ := chain_facts hchain
  have hspec := searchLoop_spec s.ascRangeEnds p
    (fun i j hij hj hpi => lt_of_lt_of_le hpi (hmono i j hij hj))
    0 0 ((s.ascRangeEnds.length : Int) - 1)
    (le_refl 0) (by omega) (by omega)
    (fun j hj => absurd hj (by omega))
    (Or.inl ⟨rfl, rfl⟩)
  rcases hspec with ⟨hfind, hall⟩ | ⟨hlt, hP, hleft⟩
  · exact Or.inl ⟨hfind, fun j hj => not_lt.mp (hall j hj)⟩
  · exact Or.inr ⟨hlt, hP, fun j hj => not_lt.mp (hleft j hj)⟩

/-- Evaluation helper: a concrete run of the fuelled loop determines the
value of the loop. -/
lemma searchLoop_eval {ends : List ℚ} {p : ℚ} {ri k : Nat} {left right : Int}
    (h : searchLoopFuel ends p ((right + 1 - left).toNat + 1) ri left right =
      some k) :
    searchLoop ends p ri left right = k := by
  have hb := searchLoopFuel_eq ends p ((right + 1 - left).toNat + 1) ri left right
    (by omega)
  rw [h] at hb
  exact (Option.some_inj.mp hb).symm

/-- On a constructed sampler the search result is always a valid index. -/
lemma findIndex_lt_length {items : List T} {ws : List ℚ}
    {s : WeightedRandomItemSampler T} (h : construct items ws = .ok s)
    (p : ℚ) :
    findCorrespondingRangeIndex s p < s.ascRangeEnds.length := by
  obtain ⟨_, hlen, hne, _, _, _, _, _⟩ := construct_ok_facts h
  have hn : 1 ≤ s.ascRangeEnds.length := by
    rw [hlen]; exact List.length_pos.mpr hne
  rcases findIndex_cases h p with ⟨h0, _⟩ | ⟨hlt, _, _⟩
  · omega
  · exact hlt

/-- When the point is at or above the last table entry, the search never
improves on its initial candidate and returns `0`. -/
lemma findIndex_zero_of_ge_last {items : List T} {ws : List ℚ}
    {s : WeightedRandomItemSampler T} (h : construct items ws = .ok s)
    (p : ℚ)
    (hp : s.ascRangeEnds.getD (s.ascRangeEnds.length - 1) 0 ≤ p) :
    findCorrespondingRangeIndex s p = 0 := by
  obtain ⟨_, hlen, hne, _, _, _, _, hchain⟩ := construct_ok_facts h
  have hn : 1 ≤ s.ascRangeEnds.length := by
    rw [hlen]; exact List.length_pos.mpr hne
  obtain ⟨_, hmono, _⟩ := chain_facts hchain
  rcases findIndex_cases h p with ⟨h0, _⟩ | ⟨hlt, hP, _⟩
  · exact h0
  · exfalso
    have hle := hmono (findCorrespondingRangeIndex s p)
      (s.ascRangeEnds.length - 1) (by omega) (by omega)
    linarith

/-- C1: for every successfully constructed sampler and every point `p`
with `0 ≤ p < total`, the binary search `_findCorrespondingRangeIndex`
returns a valid index `i` with `p < boundary[i]`, every earlier entry at
most `p` (so `p` lies in the `i`-th half-open range), and `i` minimal
among the indices whose entry exceeds `p`. -/
theorem findIndex_leftmost {items : List T} {ws : List ℚ}
    {s : WeightedRandomItemSampler T} (h : construct items ws = .ok s)
    (p : ℚ) (h0 : 0 ≤ p) (hp : p < s.lastRangeEnd) :
    findCorrespondingRangeIndex s p < s.ascRangeEnds.length ∧
    p < s.ascRangeEnds.getD (findCorrespondingRangeIndex s p) 0 ∧
    (∀ j, j < findCorrespondingRangeIndex s p →
      s.ascRangeEnds.getD j 0 ≤ p) ∧
    (∀ k, k < s.ascRangeEnds.length → p < s.ascRangeEnds.getD k 0 →
      findCorrespondingRangeIndex s p ≤ k) := by
  obtain ⟨_, hlen, hne, _, _, _, _, _⟩ := construct_ok_facts h
  have hn : 1 ≤ s.ascRangeEnds.length := by
    rw [hlen]; exact List.length_pos.mpr hne
  have hlast := construct_ok_total_eq_last h
  rcases findIndex_cases h p with ⟨_, hall⟩ | ⟨hlt, hP, hleft⟩
  · exfalso
    have := hall (s.ascRangeEnds.length - 1) (by omega)
    rw [← hlast] at this
    linarith
  · refine ⟨hlt, hP, hleft, ?_⟩
    intro k hk hPk
    by_contra hcon
    push_neg at hcon
    have := hleft k hcon
    linarith

/-- Witness for C1 at items `[7, 8]`, weights `[1, 2]`: the boundary
table is `[1, 3]`, point `0.999` resolves to index `0` and point `1.5`
to index `1`, and index `0` is confirmed by the general theorem. -/
theorem findIndex_leftmost_witness :
    construct [7, 8] [(1 : ℚ), 2] =
      .ok (⟨[7, 8], [1, 3], 3⟩ : WeightedRandomItemSampler ℕ) ∧
    findCorrespondingRangeIndex
      (⟨[7, 8], [1, 3], 3⟩ : WeightedRandomItemSampler ℕ) (999 / 1000) = 0 ∧
    findCorrespondingRangeIndex
      (⟨[7, 8], [1, 3], 3⟩ : WeightedRandomItemSampler ℕ) (3 / 2) = 1 ∧
    (999 / 1000 : ℚ) <
      ([1, 3] : List ℚ).getD (findCorrespondingRangeIndex
        (⟨[7, 8], [1, 3], 3⟩ : WeightedRandomItemSampler ℕ) (999 / 1000)) 0 := by
  have hok : construct [7, 8] [(1 : ℚ), 2] =
      .ok (⟨[7, 8], [1, 3], 3⟩ : WeightedRandomItemSampler ℕ) := by
    norm_num [construct, buildRangeEnds]
  have h1 : findCorrespondingRangeIndex
      (⟨[7, 8], [1, 3], 3⟩ : WeightedRandomItemSampler ℕ) (999 / 1000) = 0 :=
    searchLoop_eval (by norm_num [searchLoopFuel])
  have h2 : findCorrespondingRangeIndex
      (⟨[7, 8], [1, 3], 3⟩ : WeightedRandomItemSampler ℕ) (3 / 2) = 1 :=
    searchLoop_eval (by norm_num [searchLoopFuel])
  have happ := findIndex_leftmost hok (999 / 1000) (by norm_num) (by norm_num)
  exact ⟨hok, h1, h2, happ.2.1⟩

/-- C2: every valid input (nonempty items, matching lengths, positive
weights) yields a sampler whose table holds the inclusive prefix sums of
the weights, is strictly increasing, and whose cached total is the last
entry. -/
theorem construct_builds_prefix_sum_table {items : List T} {ws : List ℚ}
    (hne : items ≠ []) (hlen : items.length = ws.length)
    (hpos : ∀ w ∈ ws, 0 < w) :
    ∃ s : WeightedRandomItemSampler T,
      construct items ws = .ok s ∧
      s.ascRangeEnds.length = items.length ∧
      (∀ i, i < items.length →
        s.ascRangeEnds.getD i 0 = (ws.take (i + 1)).sum) ∧
      (∀ i j, i < j → j < s.ascRangeEnds.length →
        s.ascRangeEnds.getD i 0 < s.ascRangeEnds.getD j 0) ∧
      s.lastRangeEnd = s.ascRangeEnds.getD (items.length - 1) 0 := by
  obtain ⟨ends, total, hbuild⟩ := buildRangeEnds_ok_of_pos ws 0 hpos
  have hok : construct items ws = .ok ⟨items, ends, total⟩ := by
    rw [construct, if_neg (fun h0 => hne (List.length_eq_zero.mp h0)),
      if_neg (not_ne_iff.mpr hlen), hbuild]
  obtain ⟨_, hlen2, _, _, _, hget, _, hchain⟩ := construct_ok_facts hok
  obtain ⟨_, _, hstrict⟩ := chain_facts hchain
  have hlast := construct_ok_total_eq_last hok
  refine ⟨⟨items, ends, total⟩, hok, hlen2, ?_, hstrict, ?_⟩
  · intro i hi
    exact hget i (by rw [hlen2]; exact hi)
  · rw [hlast, hlen2]

/-- Witness for C2 at items `[7, 8]`, weights `[1, 2]`: the table is
`[1, 3]`, entries are the prefix sums, strictly increasing, and the
total `3` is the last entry. -/
theorem construct_builds_prefix_sum_table_witness :
    construct [7, 8] [(1 : ℚ), 2] =
      .ok (⟨[7, 8], [1, 3], 3⟩ : WeightedRandomItemSampler ℕ) ∧
    ([1, 3] : List ℚ).getD 0 0 = ([(1 : ℚ), 2].take 1).sum ∧
    ([1, 3] : List ℚ).getD 1 0 = ([(1 : ℚ), 2].take 2).sum ∧
    ([1, 3] : List ℚ).getD 0 0 < ([1, 3] : List ℚ).getD 1 0 ∧
    (3 : ℚ) = ([1, 3] : List ℚ).getD 1 0 := by
  obtain ⟨s, hok, hlen, hget, hstrict, hlast⟩ :=
    @construct_builds_prefix_sum_table ℕ [7, 8] [(1 : ℚ), 2]
      (by simp) rfl (by decide)
  have hcomp : construct [7, 8] [(1 : ℚ), 2] =
      .ok (⟨[7, 8], [1, 3], 3⟩ : WeightedRandomItemSampler ℕ) := by
    norm_num [construct, buildRangeEnds]
  rw [hcomp] at hok
  injection hok with hs
  subst hs
  exact ⟨hcomp, hget 0 (by norm_num), hget 1 (by norm_num),
    hstrict 0 1 (by norm_num) (by decide), hlast⟩

/-- C3: the validation checks of the constructor run in source order with the first
failure winning — empty items beat a length mismatch, which beats a
non-positive weight (itself reported for the first offending weight) —
and an instance is produced exactly for valid input; a failure produces
only an error value, never a sampler. -/
theorem construct_validation_order (items : List T) (ws : List ℚ) :
    (items = [] → construct items ws = .error .emptyInput) ∧
    (items ≠ [] → items.length ≠ ws.length →
      construct items ws = .error (.lengthMismatch items.length ws.length)) ∧
    (∀ pre w post, items ≠ [] → items.length = ws.length →
      ws = pre ++ w :: post → (∀ v ∈ pre, 0 < v) → w ≤ 0 →
      construct items ws = .error (.nonPositiveWeight w)) ∧
    ((∃ s, construct items ws = .ok s) ↔
      items ≠ [] ∧ items.length = ws.length ∧ ∀ w ∈ ws, 0 < w) := by
  refine ⟨?_, ?_, ?_, ?_⟩
  · intro hnil
    rw [construct, if_pos (by simp [hnil])]
  · intro hne hlen
    rw [construct, if_neg (fun h0 => hne (List.length_eq_zero.mp h0)),
      if_pos hlen]
  · intro pre w post hne hlen hws hpre hw
    rw [construct, if_neg (fun h0 => hne (List.length_eq_zero.mp h0)),
      if_neg (not_ne_iff.mpr hlen), hws,
      buildRangeEnds_err_first pre w post 0 hpre hw]
  · constructor
    · rintro ⟨s, hok⟩
      obtain ⟨hne, hlen, _, hbuild⟩ := construct_ok_elim hok
      obtain ⟨hpos, _, _, _, _⟩ := buildRangeEnds_ok_facts _ _ _ _ hbuild
      exact ⟨hne, hlen, hpos⟩
    · rintro ⟨hne, hlen, hpos⟩
      obtain ⟨ends, total, hbuild⟩ := buildRangeEnds_ok_of_pos ws 0 hpos
      refine ⟨⟨items, ends, total⟩, ?_⟩
      rw [construct, if_neg (fun h0 => hne (List.length_eq_zero.mp h0)),
        if_neg (not_ne_iff.mpr hlen), hbuild]

/-- Witness for C3: a negative weight in an otherwise valid input is
reported as `nonPositiveWeight`, carrying the offending value. -/
theorem construct_validation_order_witness :
    construct [5] [(-1 : ℚ)] = .error (.nonPositiveWeight (-1)) ∧
    construct ([] : List ℕ) [(5 : ℚ), 4] = .error .emptyInput ∧
    construct [5, 6] [(51 : ℚ)] = .error (.lengthMismatch 2 1) :=
  ⟨(construct_validation_order [5] [(-1 : ℚ)]).2.2.1 [] (-1) []
      (by simp) rfl rfl (by simp) (by norm_num),
    (construct_validation_order ([] : List ℕ) [(5 : ℚ), 4]).1 rfl,
    (construct_validation_order [5, 6] [(51 : ℚ)]).2.1 (by simp) (by simp)⟩

/-- The `JSNum` accumulation loop fails with `nonPositiveWeight` on the
first weight comparing `<= 0` under IEEE semantics, carrying that
value of that weight. -/
lemma buildRangeEndsJS_err_first :
    ∀ (pre : List JSNum) (w : JSNum) (post : List JSNum) (acc : JSNum),
      (∀ v ∈ pre, v.jsLe (.num 0) = false) → w.jsLe (.num 0) = true →
      buildRangeEndsJS (pre ++ w :: post) acc =
        .error (.nonPositiveWeight w) := by
  intro pre
  induction pre with
  | nil =>
    intro w post acc _ hw
    rw [List.nil_append, buildRangeEndsJS, if_pos hw]
  | cons v pre ih =>
    intro w post acc hpre hw
    have hv : v.jsLe (.num 0) = false := hpre v (by simp)
    rw [List.cons_append, buildRangeEndsJS, if_neg (by simp [hv]),
      ih w post (acc.jsAdd v) (fun x hx => hpre x (by simp [hx])) hw]

/-- C4 (amended): with the `number` semantics of the source, the
constructor rejects exactly the weights that compare `<= 0` under IEEE
rules — zero, negatives and `-Infinity`, but not NaN or `+Infinity` —
and the error carries the first offending value (no index). -/
theorem constructJS_rejects_ieee_nonpositive {items : List T}
    {ws : List JSNum} (hne : items ≠ []) (hlen : items.length = ws.length)
    (pre : List JSNum) (w : JSNum) (post : List JSNum)
    (hws : ws = pre ++ w :: post)
    (hpre : ∀ v ∈ pre, v.jsLe (.num 0) = false)
    (hw : w.jsLe (.num 0) = true) :
    constructJS items ws = .error (.nonPositiveWeight w) := by
  rw [constructJS, if_neg (fun h0 => hne (List.length_eq_zero.mp h0)),
    if_neg (not_ne_iff.mpr hlen), hws,
    buildRangeEndsJS_err_first pre w post _ hpre hw]

/-- Witness for the amended C4: a finite negative weight is rejected
with its value; so is `-Infinity`. -/
theorem constructJS_rejects_ieee_nonpositive_witness :
    constructJS [7, 8] [JSNum.num 1, JSNum.num (-2)] =
      .error (.nonPositiveWeight (.num (-2))) ∧
    constructJS [7] [JSNum.negInf] =
      .error (.nonPositiveWeight .negInf) :=
  ⟨@constructJS_rejects_ieee_nonpositive ℕ [7, 8]
      [JSNum.num 1, JSNum.num (-2)] (by simp) rfl
      [JSNum.num 1] (JSNum.num (-2)) [] rfl
      (by intro v hv; simp at hv; subst hv; simp [JSNum.jsLe])
      (by simp [JSNum.jsLe]),
    @constructJS_rejects_ieee_nonpositive ℕ [7] [JSNum.negInf]
      (by simp) rfl [] JSNum.negInf [] rfl (by simp) (by simp [JSNum.jsLe])⟩

/-- Counterexample to C4 as stated: a NaN weight (and likewise a
`+Infinity` weight) does not compare `<= 0` in IEEE arithmetic, so the
constructor accepts it and builds a sampler instead of failing. -/
theorem constructJS_accepts_nan_counterexample :
    constructJS [7] [JSNum.nan] =
      .ok (⟨[7], [JSNum.nan], JSNum.nan⟩ : JSWeightedRandomItemSampler ℕ) ∧
    constructJS [7] [JSNum.posInf] =
      .ok (⟨[7], [JSNum.posInf], JSNum.posInf⟩ :
        JSWeightedRandomItemSampler ℕ) :=
  ⟨rfl, rfl⟩

/-- Counterexample to C5 as stated: on the sampler for weights `[1, 2]`
(table `[1, 3]`, two items) the lookup at point `3 ≥ total` returns
index `0`, not the clamped last index `n - 1 = 1`: there is no clamp in
the search. -/
theorem findIndex_no_clamp_counterexample :
    construct [7, 8] [(1 : ℚ), 2] =
      .ok (⟨[7, 8], [1, 3], 3⟩ : WeightedRandomItemSampler ℕ) ∧
    findCorrespondingRangeIndex
      (⟨[7, 8], [1, 3], 3⟩ : WeightedRandomItemSampler ℕ) 3 = 0 ∧
    findCorrespondingRangeIndex
      (⟨[7, 8], [1, 3], 3⟩ : WeightedRandomItemSampler ℕ) 3 ≠
      ([7, 8] : List ℕ).length - 1 := by
  have h0 : findCorrespondingRangeIndex
      (⟨[7, 8], [1, 3], 3⟩ : WeightedRandomItemSampler ℕ) 3 = 0 :=
    searchLoop_eval (by norm_num [searchLoopFuel])
  exact ⟨by norm_num [construct, buildRangeEnds], h0, by rw [h0]; decide⟩

/-- C5 (amended): when the lookup point is at or above the total, the
search keeps its initial candidate and returns index `0`, so `sample`
reads the first item — the code has no clamp to `n - 1`. -/
theorem findIndex_point_ge_total_returns_zero {items : List T}
    {ws : List ℚ} {s : WeightedRandomItemSampler T}
    (h : construct items ws = .ok s) (p : ℚ)
    (hp : s.lastRangeEnd ≤ p) :
    findCorrespondingRangeIndex s p = 0 ∧
    s.items[findCorrespondingRangeIndex s p]? = s.items[0]? := by
  have h0 : findCorrespondingRangeIndex s p = 0 := by
    apply findIndex_zero_of_ge_last h
    rw [← construct_ok_total_eq_last h]
    exact hp
  exact ⟨h0, by rw [h0]⟩

/-- Witness for the amended C5 at point `5 ≥ total = 3`. -/
theorem findIndex_point_ge_total_returns_zero_witness :
    findCorrespondingRangeIndex
      (⟨[7, 8], [1, 3], 3⟩ : WeightedRandomItemSampler ℕ) 5 = 0 :=
  (findIndex_point_ge_total_returns_zero
    (by norm_num [construct, buildRangeEnds] :
      construct [7, 8] [(1 : ℚ), 2] =
        .ok (⟨[7, 8], [1, 3], 3⟩ : WeightedRandomItemSampler ℕ))
    5 (by norm_num)).1

/-- C6: for every successfully constructed sampler and every draw
`u ∈ [0, 1)`, `sample` returns `some` of one of the original items — an
in-range read, never `none` (the model of an out-of-range read). -/
theorem sample_returns_original_item {items : List T} {ws : List ℚ}
    {s : WeightedRandomItemSampler T} (h : construct items ws = .ok s)
    (u : ℚ) (h0 : 0 ≤ u) (h1 : u < 1) :
    ∃ i, ∃ hi : i < s.items.length,
      sample s u = some (s.items.get ⟨i, hi⟩) := by
  obtain ⟨hitems, hlen, hne, hlw, hpos, _, htot, _⟩ := construct_ok_facts h
  have hidx := findIndex_lt_length h (u * s.lastRangeEnd)
  have hil : s.items.length = s.ascRangeEnds.length := by rw [hlen, hitems]
  refine ⟨findCorrespondingRangeIndex s (u * s.lastRangeEnd),
    by rw [hil]; exact hidx, ?_⟩
  rw [sample]
  exact List.getElem?_eq_getElem (by rw [hil]; exact hidx)

/-- Witness for C6 at `u = 1/2` on the sampler for weights `[1, 2]`:
the point is `3/2`, which resolves to an index of the item list. -/
theorem sample_returns_original_item_witness :
    (0 : ℚ) ≤ 1 / 2 ∧ (1 / 2 : ℚ) < 1 ∧
    ∃ i, ∃ hi : i < ([7, 8] : List ℕ).length,
      sample (⟨[7, 8], [1, 3], 3⟩ : WeightedRandomItemSampler ℕ) (1 / 2) =
        some (([7, 8] : List ℕ).get ⟨i, hi⟩) :=
  ⟨by norm_num, by norm_num,
    sample_returns_original_item
      (by norm_num [construct, buildRangeEnds] :
        construct [7, 8] [(1 : ℚ), 2] =
          .ok (⟨[7, 8], [1, 3], 3⟩ : WeightedRandomItemSampler ℕ))
      (1 / 2) (by norm_num) (by norm_num)⟩

/-- C7: `sample()` never writes a field, so any sequence of calls leaves
the sampler in exactly the state produced by construction. -/
theorem sample_preserves_state {items : List T} {ws : List ℚ}
    {s : WeightedRandomItemSampler T} (h : construct items ws = .ok s)
    (us : List ℚ) :
    (runSamples s us).2 = s := by
  induction us with
  | nil => rfl
  | cons u us ih => simpa [runSamples, sampleStep] using ih

/-- Witness for C7: two consecutive draws leave the concrete sampler
unchanged. -/
theorem sample_preserves_state_witness :
    (runSamples (⟨[7, 8], [1, 3], 3⟩ : WeightedRandomItemSampler ℕ)
        [1 / 2, 1 / 4]).2 =
      (⟨[7, 8], [1, 3], 3⟩ : WeightedRandomItemSampler ℕ) :=
  sample_preserves_state
    (by norm_num [construct, buildRangeEnds] :
      construct [7, 8] [(1 : ℚ), 2] =
        .ok (⟨[7, 8], [1, 3], 3⟩ : WeightedRandomItemSampler ℕ))
    [1 / 2, 1 / 4]

/-- C8: construction is deterministic in its derived structure — equal
item lists and equal weight lists give element-wise equal boundary
tables and equal cached totals. -/
theorem construct_deterministic {items1 items2 : List T}
    {ws1 ws2 : List ℚ} {s1 s2 : WeightedRandomItemSampler T}
    (h1 : construct items1 ws1 = .ok s1)
    (h2 : construct items2 ws2 = .ok s2)
    (hi : items1 = items2) (hw : ws1 = ws2) :
    s1.ascRangeEnds = s2.ascRangeEnds ∧ s1.lastRangeEnd = s2.lastRangeEnd := by
  subst hi; subst hw
  rw [h1] at h2
  injection h2 with hs
  subst hs
  exact ⟨rfl, rfl⟩

/-- Witness for C8: two constructions from the same items and weights. -/
theorem construct_deterministic_witness :
    ([1, 3] : List ℚ) = [1, 3] ∧ (3 : ℚ) = 3 :=
  construct_deterministic
    (by norm_num [construct, buildRangeEnds] :
      construct [7, 8] [(1 : ℚ), 2] =
        .ok (⟨[7, 8], [1, 3], 3⟩ : WeightedRandomItemSampler ℕ))
    (by norm_num [construct, buildRangeEnds] :
      construct [7, 8] [(1 : ℚ), 2] =
        .ok (⟨[7, 8], [1, 3], 3⟩ : WeightedRandomItemSampler ℕ))
    rfl rfl

/-- C9: the binary-search loop terminates on every constructed sampler
and every point, in or out of range: the interval width strictly
decreases each iteration, so fuel exceeding the initial width is never
exhausted and the fuelled loop computes the (total) search function. -/
theorem findIndex_terminates {items : List T} {ws : List ℚ}
    {s : WeightedRandomItemSampler T} (h : construct items ws = .ok s)
    (p : ℚ) :
    searchLoopFuel s.ascRangeEnds p (s.ascRangeEnds.length + 1) 0 0
        ((s.ascRangeEnds.length : Int) - 1) =
      some (findCorrespondingRangeIndex s p) := by
  rw [findCorrespondingRangeIndex]
  exact searchLoopFuel_eq _ _ _ _ _ _ (by omega)

/-- Witness for C9 at the out-of-range point `100`. -/
theorem findIndex_terminates_witness :
    searchLoopFuel [1, 3] 100 3 0 0 1 =
      some (findCorrespondingRangeIndex
        (⟨[7, 8], [1, 3], 3⟩ : WeightedRandomItemSampler ℕ) 100) :=
  findIndex_terminates
    (by norm_num [construct, buildRangeEnds] :
      construct [7, 8] [(1 : ℚ), 2] =
        .ok (⟨[7, 8], [1, 3], 3⟩ : WeightedRandomItemSampler ℕ))
    100

/-- C10: the search returns its initial candidate `0` both when the
point is at or above the last boundary (no entry exceeds it) and when
the point is below the first boundary (index 0 is the leftmost match,
including for negative points). -/
theorem findIndex_extremes {items : List T} {ws : List ℚ}
    {s : WeightedRandomItemSampler T} (h : construct items ws = .ok s)
    (p : ℚ) :
    (s.ascRangeEnds.getD (s.ascRangeEnds.length - 1) 0 ≤ p →
      findCorrespondingRangeIndex s p = 0) ∧
    (p < s.ascRangeEnds.getD 0 0 → findCorrespondingRangeIndex s p = 0) := by
  constructor
  · exact findIndex_zero_of_ge_last h p
  · intro hp
    rcases findIndex_cases h p with ⟨h0, _⟩ | ⟨_, _, hleft⟩
    · exact h0
    · by_contra hne0
      have := hleft 0 (Nat.pos_of_ne_zero hne0)
      linarith

/-- Witness for C10: on the table `[1, 3]`, the point `7 ≥ 3` and the
negative point `-1 < 1` both resolve to index `0`. -/
theorem findIndex_extremes_witness :
    findCorrespondingRangeIndex
      (⟨[7, 8], [1, 3], 3⟩ : WeightedRandomItemSampler ℕ) 7 = 0 ∧
    findCorrespondingRangeIndex
      (⟨[7, 8], [1, 3], 3⟩ : WeightedRandomItemSampler ℕ) (-1) = 0 := by
  have hok : construct [7, 8] [(1 : ℚ), 2] =
      .ok (⟨[7, 8], [1, 3], 3⟩ : WeightedRandomItemSampler ℕ) := by
    norm_num [construct, buildRangeEnds]
  exact ⟨(findIndex_extremes hok 7).1 (by norm_num),
    (findIndex_extremes hok (-1)).2 (by norm_num)⟩

end WeightedSampler
